import Mathlib

/-!
Shallow embedding of `cluster/points_writer.go` and the cluster `Service`
(the peer write path) from the influxcloud repository, together with proofs
about the consistency fan-out, shard-group lookup, shard mapping and the
peer-side write handler.

Conventions of the embedding:
* Go errors are values of `Option String` (`none` = nil error, `some msg` =
  an error whose rendered message is `msg`).
* Node identifiers and shard identifiers are natural numbers.
* Nanosecond timestamps are integers.
* Channels and goroutine scheduling are abstracted by explicit traces: the
  result-collection loop of `writeToShard` consumes a list of `WEvent`s, one
  per executed `select` iteration, covering every interleaving of replica
  results, timeout and shutdown that the Go scheduler can produce.
-/

/-- `models.ConsistencyLevel` (ANY / ONE / QUORUM / ALL). -/
inductive ConsistencyLevel
  | any
  | one
  | quorum
  | all
deriving DecidableEq, Repr

/-- The required acknowledgement count computed at the top of `writeToShard`:
`required := len(shard.Owners)`, then the `switch consistency` lowers it to `1`
for ANY/ONE and to `required/2 + 1` for QUORUM; ALL keeps `len(owners)`. -/
def requiredAcks (consistency : ConsistencyLevel) (numOwners : Nat) : Nat :=
  match consistency with
  | .any => 1
  | .one => 1
  | .quorum => numOwners / 2 + 1
  | .all => numOwners

/-- `isRetryable` needs `strings.Contains`; substring occurrence over the
underlying character lists. -/
def listContainsSub (hay needle : List Char) : Bool :=
  match hay with
  | [] => needle.isEmpty
  | _ :: t => needle.isPrefixOf hay || listContainsSub t needle

/-- `strings.Contains(s, sub)`. -/
def strContains (s sub : String) : Bool :=
  listContainsSub s.toList sub.toList

/-- `isRetryable(err)`: nil errors are retryable, errors whose text contains
`"field type conflict"` are not, everything else is. -/
def isRetryable (err : Option String) : Bool :=
  match err with
  | none => true
  | some msg => if strContains msg "field type conflict" then false else true

/-- Body of the *local* goroutine `writeToShard` spawns per owner: it emits a
result only when the owner is the local node, in which case it reports the
outcome of `TSDBStore.WriteToShard`.  `none` means the goroutine sends nothing
on the channel; `some r` means it sends a result carrying error `r`. -/
def localAttempt (selfID ownerID : Nat) (localRes : Option String) :
    Option (Option String) :=
  if selfID ≠ ownerID then none else some localRes

/-- Body of the *remote* goroutine `writeToShard` spawns per owner.
`remoteRes` is what `ShardWriter.WriteShard` would return, `hhRes` what
`HintedHandoff.WriteShard` would return if invoked.  The first component is
the emitted result (`none` = nothing sent), the second records whether
`HintedHandoff.WriteShard` was invoked. -/
def remoteAttempt (selfID ownerID : Nat) (remoteRes hhRes : Option String)
    (consistency : ConsistencyLevel) : Option (Option String) × Bool :=
  if selfID ≠ ownerID then
    if remoteRes ≠ none ∧ isRetryable remoteRes = true then
      -- the remote write failed so queue it via hinted handoff
      match hhRes with
      | some hherr => (some (some hherr), true)
      | none =>
        -- a successful hinted handoff counts as a write only at ANY;
        -- otherwise the original error propagates
        if consistency = .any then (some none, true)
        else (some remoteRes, true)
    else (some remoteRes, false)
  else (none, false)

/-- The per-owner pair of goroutine emissions spawned by the fan-out loop of
`writeToShard` (local attempt and remote attempt, in spawn order). -/
def spawnedResults (selfID : Nat) (owners : List Nat)
    (localRes remoteRes hhRes : Nat → Option String)
    (consistency : ConsistencyLevel) : List (Option (Option String)) :=
  owners.flatMap fun o =>
    [localAttempt selfID o (localRes o),
     (remoteAttempt selfID o (remoteRes o) (hhRes o) consistency).1]

/-- One iteration of the `select` in `writeToShard`'s collection loop:
shutdown (`<-w.closing`), timeout (`<-timeout`), or a replica result from the
channel. -/
inductive WEvent
  | closing
  | timeout
  | result (err : Option String)
deriving DecidableEq, Repr

/-- The distinguishable return values of `writeToShard`.  `ErrWriteFailed` is
one sentinel in the Go code, returned both on shutdown and when no replica
succeeded and no error was seen; both are `.writeFailed` here.
`.writeFailedWrapped msg` is `fmt.Errorf("write failed: %v", writeError)`. -/
inductive WriteOutcome
  | success
  | timeout
  | partialWrite
  | writeFailedWrapped (msg : String)
  | writeFailed
deriving DecidableEq, Repr

/-- The classification after the collection loop has drained all owner
results: `wrote > 0` gives `ErrPartialWrite`, else a remembered first error is
wrapped as `"write failed: <err>"`, else `ErrWriteFailed`. -/
def finishClass (wrote : Nat) (writeError : Option String) : WriteOutcome :=
  if 0 < wrote then .partialWrite
  else
    match writeError with
    | some e => .writeFailedWrapped ("write failed: " ++ e)
    | none => .writeFailed

/-- The result-collection loop of `writeToShard` (`for range shard.Owners`
with the three-way `select`).  `n` is the number of iterations left, `wrote`
the number of successes so far, `writeError` the first error seen so far, and
`events` the trace of `select` outcomes.  An exhausted trace (impossible in
the Go program, where the timeout always eventually fires) falls through to
the final classification. -/
def writeLoop (required : Nat) :
    Nat → Nat → Option String → List WEvent → WriteOutcome
  | 0, wrote, writeError, _ => finishClass wrote writeError
  | _ + 1, wrote, writeError, [] => finishClass wrote writeError
  | n + 1, wrote, writeError, e :: rest =>
    match e with
    | .closing => .writeFailed
    | .timeout => .timeout
    | .result (some msg) =>
      writeLoop required n wrote
        (if writeError = none then some msg else writeError) rest
    | .result none =>
      if required ≤ wrote + 1 then .success
      else writeLoop required n (wrote + 1) writeError rest

/-- `writeToShard` for a shard whose owner node ids are `owners`: computes the
required acknowledgement count and runs the collection loop over the trace of
`select` events. -/
def writeToShard (consistency : ConsistencyLevel) (owners : List Nat)
    (events : List WEvent) : WriteOutcome :=
  writeLoop (requiredAcks consistency owners.length) owners.length 0 none events

/-- Events that are replica results (not timeout or shutdown). -/
def WEvent.isResult : WEvent → Bool
  | .result _ => true
  | _ => false

/-- The replica results consumed by the loop before any timeout or shutdown
event, over at most `n` iterations. -/
def takenResults (n : Nat) (events : List WEvent) : List WEvent :=
  (events.take n).takeWhile WEvent.isResult

/-- Number of owner-successes (results carrying a nil error) in a trace. -/
def okCount (l : List WEvent) : Nat :=
  l.countP fun e => e = WEvent.result none

/-- The first error among the result events of a trace. -/
def firstErr (l : List WEvent) : Option String :=
  (l.filterMap fun e =>
    match e with
    | .result (some msg) => some msg
    | _ => none).head?

/-- Keep the first error: the update
`if writeError == nil { writeError = result.Err }` folded over a trace. -/
def orFirst (a b : Option String) : Option String :=
  match a with
  | some x => some x
  | none => b

/-- `meta.ShardGroupInfo` as used by the points writer: identifier, the
half-open time interval `[startTime, endTime)` it covers, and the ids of the
shards partitioning its hash space. -/
structure ShardGroup where
  id : Nat
  startTime : Int
  endTime : Int
  shards : List Nat
deriving DecidableEq, Repr

/-- The order `sort.Sort` establishes on `meta.ShardGroupInfos`: ascending
end time, ties broken by ascending start time. -/
def sgLE (a b : ShardGroup) : Prop :=
  a.endTime < b.endTime ∨ (a.endTime = b.endTime ∧ a.startTime ≤ b.startTime)

instance : DecidableRel sgLE := fun a b => by
  unfold sgLE; infer_instance

instance : IsTotal ShardGroup sgLE := ⟨by intro a b; unfold sgLE; omega⟩

instance : IsTrans ShardGroup sgLE := ⟨by intro a b c; unfold sgLE; omega⟩

/-- A shard-group list sorted by `(endTime, startTime)`, the invariant `sgList`
maintains. -/
def SortedSG (l : List ShardGroup) : Prop :=
  l.Sorted sgLE

instance (l : List ShardGroup) : Decidable (SortedSG l) := by
  unfold SortedSG; infer_instance

/-- Two shard groups with non-overlapping time intervals. -/
def sgDisjoint (a b : ShardGroup) : Prop :=
  a.endTime ≤ b.startTime ∨ b.endTime ≤ a.startTime

instance : DecidableRel sgDisjoint := fun a b => by
  unfold sgDisjoint; infer_instance

/-- The loop of Go's `sort.Search` (binary search for the least index in
`[i, j)` where `f` is true, under a monotone `f`), written with explicit fuel;
`j - i` shrinks every iteration, so fuel `n ≥ j - i` reproduces the loop. -/
def searchLoop (f : Nat → Bool) : Nat → Nat → Nat → Nat
  | 0, i, _ => i
  | fuel + 1, i, j =>
    if i < j then
      if f ((i + j) / 2) then searchLoop f fuel i ((i + j) / 2)
      else searchLoop f fuel ((i + j) / 2 + 1) j
    else i

/-- `sort.Search(n, f)`. -/
def sortSearch (n : Nat) (f : Nat → Bool) : Nat :=
  searchLoop f n 0 n

/-- The default value `List.getD` falls back to; never reached at in-bounds
indices. -/
def dfltSG : ShardGroup := ⟨0, 0, 0, []⟩

/-- `sgList.ShardGroupAt(t)`: binary-search the first index whose group has
`EndTime.After(t)`; return nil if there is none or if the point is before that
group's start time, else that group. -/
def shardGroupAt (l : List ShardGroup) (t : Int) : Option ShardGroup :=
  let idx := sortSearch l.length fun i => decide (t < (l.getD i dfltSG).endTime)
  if h : idx < l.length then
    if t < (l.get ⟨idx, h⟩).startTime then none else some (l.get ⟨idx, h⟩)
  else none

/-- `sgList.Covers(t)`: false on the empty list, else whether `ShardGroupAt`
finds a group. -/
def covers (l : List ShardGroup) (t : Int) : Bool :=
  if l.isEmpty then false else (shardGroupAt l t).isSome

/-- `sgList.Append`: add a group and re-establish the sort order.  Inserting
into a list that is already sorted, this is ordered insertion. -/
def sgAppend (l : List ShardGroup) (g : ShardGroup) : List ShardGroup :=
  List.orderedInsert sgLE g l

/-- A write point as the mapping code sees it: its nanosecond timestamp and
the series-key hash (`p.HashID()`) used to pick a shard within a group. -/
structure Point where
  time : Int
  hashId : Nat
deriving DecidableEq, Repr

/-- `models.MinNanoTime`, the minimum usable nanosecond timestamp. -/
def minNanoTime : Int := -9223372036854775806

/-- The minimum time admitted by `MapShards`: `now - rp.Duration` when the
retention duration is positive, else `models.MinNanoTime`. -/
def minTime (now duration : Int) : Int :=
  if 0 < duration then now - duration else minNanoTime

/-- First loop of `MapShards`: walk the points and, for every point inside the
retention window that no current group covers, ask the meta client for a new
shard group and append it.  `createSG t = none` models the two aborting
branches of the Go code (a `CreateShardGroup` error and a nil group), each of
which makes `MapShards` return an error. -/
def buildSGList (createSG : Int → Option ShardGroup) (minT : Int) :
    List Point → List ShardGroup → Except String (List ShardGroup)
  | [], l => .ok l
  | p :: ps, l =>
    if p.time < minT ∨ covers l p.time = true then buildSGList createSG minT ps l
    else
      match createSG p.time with
      | none => .error "create shard group failed"
      | some sg => buildSGList createSG minT ps (sgAppend l sg)

/-- Second loop of `MapShards`: for each point, find its group via
`ShardGroupAt`; points with no group are skipped, the rest are mapped through
`sg.ShardFor(p.HashID())` (abstracted as `shardFor`) into the bucket of the
resulting shard id.  The association list records `MapPoint`'s appends in
order; the Go map bucket for shard id `k` is the sub-list with key `k`. -/
def mapShardsAssign (shardFor : ShardGroup → Nat → Nat)
    (l : List ShardGroup) (points : List Point) : List (Nat × Point) :=
  points.filterMap fun p =>
    (shardGroupAt l p.time).map fun sg => (shardFor sg p.hashId, p)

/-- `PointsWriter.MapShards` after the retention-policy lookup succeeded:
compute the minimum time, build the covering group list, then bucket the
points. -/
def MapShards (createSG : Int → Option ShardGroup)
    (shardFor : ShardGroup → Nat → Nat) (now duration : Int)
    (points : List Point) : Except String (List (Nat × Point)) :=
  match buildSGList createSG (minTime now duration) points [] with
  | .error e => .error e
  | .ok l => .ok (mapShardsAssign shardFor l points)

/-- Result of a `TSDBStore.WriteToShard` call as seen by
`processWriteShardRequest`: nil, the `tsdb.ErrShardNotFound` sentinel, or any
other error with its message. -/
inductive StoreErr
  | shardNotFound
  | other (msg : String)
deriving DecidableEq, Repr

/-- Rendered message of a store error (`err.Error()`). -/
def StoreErr.msg : StoreErr → String
  | .shardNotFound => "shard not found"
  | .other m => m

/-- A call `processWriteShardRequest` makes into the `TSDBStore`. -/
inductive StoreCall
  | writeShard (shardID : Nat)
  | createShard (db rp : String) (shardID : Nat) (enabled : Bool)
deriving DecidableEq, Repr

/-- `Service.processWriteShardRequest` after unmarshalling succeeded.
`w1` is what the initial `TSDBStore.WriteToShard` returns, `cs` what
`TSDBStore.CreateShard` would return if called, `w2` what the retried
`TSDBStore.WriteToShard` would return if called.  Returns the error handed to
the peer together with the trace of store calls made. -/
def processWriteShardRequest (db rp : String) (shardID : Nat)
    (w1 : Option StoreErr) (cs : Option String) (w2 : Option StoreErr) :
    Option String × List StoreCall :=
  match w1 with
  | some .shardNotFound =>
    if db = "" ∨ rp = "" then
      -- drop the stale write, returning nil to the peer
      (none, [.writeShard shardID])
    else
      match cs with
      | some cerr =>
        (some ("create shard " ++ toString shardID ++ ": " ++ cerr),
         [.writeShard shardID, .createShard db rp shardID true])
      | none =>
        match w2 with
        | some e =>
          (some ("write shard " ++ toString shardID ++ ": " ++ e.msg),
           [.writeShard shardID, .createShard db rp shardID true,
            .writeShard shardID])
        | none =>
          (none,
           [.writeShard shardID, .createShard db rp shardID true,
            .writeShard shardID])
  | some (.other m) =>
    (some ("write shard " ++ toString shardID ++ ": " ++ m),
     [.writeShard shardID])
  | none => (none, [.writeShard shardID])

/-- State of a Go `chan struct{}` field as the lifecycle code manipulates it:
a live channel, a channel that has been closed, or a nil field. -/
inductive ChanState
  | live
  | closed
  | nilChan
deriving DecidableEq, Repr

/-- Go's `close(ch)`: closing a live channel closes it; closing an
already-closed or nil channel panics (`none`). -/
def goCloseChan : ChanState → Option ChanState
  | .live => some .closed
  | .closed => none
  | .nilChan => none

/-- `PointsWriter.Open`: reinitialise `closing` with a fresh channel. -/
def pwOpen (_ : ChanState) : ChanState := .live

/-- `PointsWriter.Close`: under the write lock, `close(w.closing)` whenever the
field is non-nil.  The field is never reset, so it stays non-nil (and closed)
after the first Close. -/
def pwClose (st : ChanState) : Option ChanState :=
  if st = .nilChan then some st else goCloseChan st

/-- `Service.Close`: `close(s.closing)` unconditionally. -/
def serviceClose (st : ChanState) : Option ChanState :=
  goCloseChan st

/-- Two overlapping shard groups, sorted by `(endTime, startTime)`: the group
ending at 20 starts after time 5, while the group ending at 30 contains 5. -/
def cexList : List ShardGroup := [⟨1, 10, 20, []⟩, ⟨2, 0, 30, []⟩]

/-- A meta client returning one of two fixed windows, used on concrete
inputs. -/
def cexCreate : Int → Option ShardGroup := fun t =>
  some (if t < 30 then ⟨101, 0, 30, [7]⟩ else ⟨102, 30, 60, [8]⟩)

/-- `meta.ShardGroupInfo.ShardFor`: index the group's shard list by
`hash mod len(shards)`. -/
def cexShardFor : ShardGroup → Nat → Nat := fun sg h =>
  sg.shards.getD (h % sg.shards.length) 0

/-- A 30-tick aligned window function standing in for a well-behaved meta
client: the group returned for `t` covers `t`, and any two returned groups
are equal or disjoint. -/
def w30 (t : Int) : ShardGroup :=
  ⟨0, 30 * (t / 30), 30 * (t / 30) + 30, [7]⟩

/-- C5: the required acknowledgement count computed by `writeToShard` is 1
for ANY and ONE, `⌊N/2⌋ + 1` for QUORUM and `N` for ALL, where
`N = len(owners)`; in particular one owner under QUORUM requires 1 ack and
three owners under QUORUM require 2 acks. -/
theorem requiredAcks_values (n : Nat) :
    requiredAcks .any n = 1 ∧ requiredAcks .one n = 1 ∧
    requiredAcks .quorum n = n / 2 + 1 ∧ requiredAcks .all n = n ∧
    requiredAcks .quorum 1 = 1 ∧ requiredAcks .quorum 3 = 2 :=
  ⟨rfl, rfl, rfl, rfl, rfl, rfl⟩

/-- C10: on a shard with no owners `writeToShard` spawns no writer
goroutines, consumes no results, and returns `ErrWriteFailed` at every
consistency level and for every trace — even under ALL, whose computed
required-ack count is 0; the success return is never reached. -/
theorem writeToShard_emptyOwners (consistency : ConsistencyLevel)
    (events : List WEvent) (selfID : Nat)
    (localRes remoteRes hhRes : Nat → Option String) :
    writeToShard consistency [] events = .writeFailed ∧
    spawnedResults selfID [] localRes remoteRes hhRes consistency = [] ∧
    requiredAcks .all 0 = 0 ∧
    writeToShard consistency [] events ≠ .success := by
  refine ⟨rfl, rfl, rfl, ?_⟩
  intro h
  simp [writeToShard, writeLoop, finishClass] at h

/-- C9 is a code bug: `PointsWriter.Close` guards only against a nil
`closing` field and never resets the field after closing it, and
`Service.Close` has no guard at all, so a second `Close` without an
intervening `Open` calls `close` on an already-closed channel, which panics
(`none` here); the first `Close` from a freshly opened writer works. -/
theorem close_double_close_panics :
    pwClose .live = some .closed ∧
    pwClose .closed = none ∧
    (pwClose ChanState.live).bind pwClose = none ∧
    serviceClose .closed = none ∧
    pwOpen .closed = .live ∧
    pwClose .nilChan = some .nilChan := by
  decide

/-- C2: in the remote attempt for a non-local owner whose remote write failed
with a retryable error, a successful hinted handoff makes the emitted result
nil exactly at consistency ANY; at any other level the original remote error
is emitted, and a failed handoff emits the handoff error. -/
theorem remoteAttempt_handoff (selfID ownerID : Nat) (rerr : String)
    (consistency : ConsistencyLevel) (hremote : selfID ≠ ownerID)
    (hretry : isRetryable (some rerr) = true) :
    ((remoteAttempt selfID ownerID (some rerr) none consistency).1 = some none ↔
      consistency = .any) ∧
    (consistency ≠ .any →
      (remoteAttempt selfID ownerID (some rerr) none consistency).1 =
        some (some rerr)) ∧
    (∀ hherr : String,
      (remoteAttempt selfID ownerID (some rerr) (some hherr) consistency).1 =
        some (some hherr)) := by
  have hcond : (some rerr ≠ none ∧ isRetryable (some rerr) = true) :=
    ⟨by simp, hretry⟩
  refine ⟨?_, ?_, ?_⟩
  · unfold remoteAttempt
    rw [if_pos hremote, if_pos hcond]
    cases consistency <;> simp
  · intro hne
    unfold remoteAttempt
    rw [if_pos hremote, if_pos hcond]
    cases consistency <;> simp_all
  · intro hherr
    unfold remoteAttempt
    rw [if_pos hremote, if_pos hcond]

/-- C2 witness at a concrete remote owner and error. -/
theorem remoteAttempt_handoff_w :
    (remoteAttempt 1 2 (some "connection refused") none .any).1 = some none ∧
    (remoteAttempt 1 2 (some "connection refused") none .quorum).1 =
      some (some "connection refused") ∧
    (remoteAttempt 1 2 (some "connection refused") (some "hh queue full") .one).1 =
      some (some "hh queue full") :=
  ⟨((remoteAttempt_handoff 1 2 "connection refused" .any (by decide)
      (by decide)).1).mpr rfl,
   (remoteAttempt_handoff 1 2 "connection refused" .quorum (by decide)
      (by decide)).2.1 (by simp),
   (remoteAttempt_handoff 1 2 "connection refused" .one (by decide)
      (by decide)).2.2 "hh queue full"⟩

/-- C6: `isRetryable` holds of nil errors, fails exactly on errors whose text
contains `"field type conflict"`, and the remote attempt invokes
`HintedHandoff.WriteShard` only on retryable errors, so a field-type-conflict
error never reaches the hinted handoff. -/
theorem isRetryable_spec :
    isRetryable none = true ∧
    (∀ msg : String, strContains msg "field type conflict" = true →
      isRetryable (some msg) = false) ∧
    (∀ msg : String, strContains msg "field type conflict" = false →
      isRetryable (some msg) = true) ∧
    (∀ (selfID ownerID : Nat) (rerr hhRes : Option String)
      (c : ConsistencyLevel),
      (remoteAttempt selfID ownerID rerr hhRes c).2 = true →
      isRetryable rerr = true) ∧
    (∀ (selfID ownerID : Nat) (msg : String) (hhRes : Option String)
      (c : ConsistencyLevel), strContains msg "field type conflict" = true →
      (remoteAttempt selfID ownerID (some msg) hhRes c).2 = false) := by
  refine ⟨rfl, ?_, ?_, ?_, ?_⟩
  · intro msg h; simp [isRetryable, h]
  · intro msg h; simp [isRetryable, h]
  · intro selfID ownerID rerr hhRes c h
    unfold remoteAttempt at h
    split at h
    · split at h
      · rename_i hcond
        exact hcond.2
      · simp at h
    · simp at h
  · intro selfID ownerID msg hhRes c h
    have hr : isRetryable (some msg) = false := by simp [isRetryable, h]
    unfold remoteAttempt
    split
    · rw [if_neg (by simp [hr])]
    · rfl

/-- C6 witness on concrete error texts. -/
theorem isRetryable_spec_w :
    isRetryable (some "engine: field type conflict: input field") = false ∧
    isRetryable (some "connection refused") = true ∧
    (remoteAttempt 1 2 (some "engine: field type conflict: input field")
      none .one).2 = false :=
  ⟨isRetryable_spec.2.1 _ (by decide),
   isRetryable_spec.2.2.1 _ (by decide),
   isRetryable_spec.2.2.2.2 1 2 _ none .one (by decide)⟩

/-- C8 counterexample: with `ShardNotFound`, non-empty database `"x"` and
retention policy `"y"`, and a failing `CreateShard`, the handler performs no
retry at all (a single `WriteToShard` call) and returns the wrapped
`CreateShard` error, not a retry outcome — the claim's "exactly one retry of
WriteToShard is performed and the retry's outcome is final" is false here. -/
theorem processWriteShardRequest_cex :
    ("x" ≠ "" ∧ "y" ≠ "") ∧
    processWriteShardRequest "x" "y" 42 (some .shardNotFound)
        (some "disk full") none =
      (some "create shard 42: disk full",
       [.writeShard 42, .createShard "x" "y" 42 true]) ∧
    (processWriteShardRequest "x" "y" 42 (some .shardNotFound)
        (some "disk full") none).2.count (.writeShard 42) = 1 := by
  decide

/-- C8 (corrected): on `ShardNotFound` with non-empty database and retention
policy, exactly one `CreateShard(db, rp, id, true)` is performed; when it
succeeds, exactly one retry of `WriteToShard` follows and the retry's outcome,
wrapped as `"write shard <id>: <err>"` on error, is final; when `CreateShard`
fails, no retry happens and its error is final, wrapped as
`"create shard <id>: <err>"`.  With an empty database or retention policy the
request is dropped and nil is returned to the peer. -/
theorem processWriteShardRequest_spec (db rp : String) (shardID : Nat)
    (cs : Option String) (w2 : Option StoreErr) :
    (db = "" ∨ rp = "" →
      processWriteShardRequest db rp shardID (some .shardNotFound) cs w2 =
        (none, [.writeShard shardID])) ∧
    (db ≠ "" → rp ≠ "" →
      processWriteShardRequest db rp shardID (some .shardNotFound) none w2 =
        (w2.map fun e => "write shard " ++ toString shardID ++ ": " ++ e.msg,
         [.writeShard shardID, .createShard db rp shardID true,
          .writeShard shardID]) ∧
      (∀ cerr : String,
        processWriteShardRequest db rp shardID (some .shardNotFound)
            (some cerr) w2 =
          (some ("create shard " ++ toString shardID ++ ": " ++ cerr),
           [.writeShard shardID, .createShard db rp shardID true]))) ∧
    (∀ m : String,
      processWriteShardRequest db rp shardID (some (.other m)) cs w2 =
        (some ("write shard " ++ toString shardID ++ ": " ++ m),
         [.writeShard shardID])) ∧
    processWriteShardRequest db rp shardID none cs w2 =
      (none, [.writeShard shardID]) := by
  refine ⟨?_, ?_, fun m => rfl, rfl⟩
  · intro h
    unfold processWriteShardRequest
    rw [if_pos h]
  · intro hdb hrp
    have hne : ¬(db = "" ∨ rp = "") := by simp [hdb, hrp]
    constructor
    · unfold processWriteShardRequest
      rw [if_neg hne]
      cases w2 <;> rfl
    · intro cerr
      unfold processWriteShardRequest
      rw [if_neg hne]

/-- C8 witness: successful create-then-retry path at concrete inputs. -/
theorem processWriteShardRequest_spec_w :
    processWriteShardRequest "db0" "rp0" 7 (some .shardNotFound) none none =
      (none, [.writeShard 7, .createShard "db0" "rp0" 7 true, .writeShard 7]) :=
  ((processWriteShardRequest_spec "db0" "rp0" 7 none none).2.1
    (by decide) (by decide)).1

/-- Go documents `sort.Search`'s contract only for monotone predicates; with
enough fuel and a predicate monotone below `n`, the loop brackets the least
true index: everything below the result is false, everything from the result
up to `n` is true. -/
theorem searchLoop_spec (f : Nat → Bool) (n : Nat)
    (hf : ∀ a b, a ≤ b → b < n → f a = true → f b = true) :
    ∀ (fuel i j : Nat), i ≤ j → j ≤ n → j - i ≤ fuel →
      (∀ k, k < i → f k = false) → (∀ k, j ≤ k → k < n → f k = true) →
      i ≤ searchLoop f fuel i j ∧ searchLoop f fuel i j ≤ j ∧
      (∀ k, k < searchLoop f fuel i j → f k = false) ∧
      (∀ k, searchLoop f fuel i j ≤ k → k < n → f k = true) := by
  intro fuel
  induction fuel with
  | zero =>
    intro i j hij hjn hfuel hA hB
    have hij' : i = j := by omega
    subst hij'
    exact ⟨le_rfl, le_rfl, hA, hB⟩
  | succ fuel ih =>
    intro i j hij hjn hfuel hA hB
    by_cases hlt : i < j
    · rw [searchLoop, if_pos hlt]
      by_cases hm : f ((i + j) / 2) = true
      · rw [if_pos hm]
        have h := ih i ((i + j) / 2) (by omega) (by omega) (by omega) hA
          (fun k hk1 hk2 => hf _ k hk1 hk2 hm)
        exact ⟨h.1, by omega, h.2.2⟩
      · rw [if_neg hm]
        have hA' : ∀ k, k < (i + j) / 2 + 1 → f k = false := by
          intro k hk
          by_cases hki : k < i
          · exact hA k hki
          · by_cases hfk : f k = true
            · exact absurd (hf k ((i + j) / 2) (by omega) (by omega) hfk)
                hm
            · exact eq_false_of_ne_true hfk
        have h := ih ((i + j) / 2 + 1) j (by omega) hjn (by omega) hA' hB
        exact ⟨by omega, h.2.1, h.2.2⟩
    · rw [searchLoop, if_neg hlt]
      have hij' : i = j := by omega
      subst hij'
      exact ⟨le_rfl, le_rfl, hA, hB⟩

/-- `sort.Search(n, f)` characterised for monotone `f`. -/
theorem sortSearch_spec (f : Nat → Bool) (n : Nat)
    (hf : ∀ a b, a ≤ b → b < n → f a = true → f b = true) :
    sortSearch n f ≤ n ∧ (∀ k, k < sortSearch n f → f k = false) ∧
    (∀ k, sortSearch n f ≤ k → k < n → f k = true) := by
  have h := searchLoop_spec f n hf n 0 n (by omega) le_rfl (by omega)
    (fun k hk => absurd hk (Nat.not_lt_zero k))
    (fun k h1 h2 => absurd h2 (by omega))
  exact ⟨h.2.1, h.2.2⟩

theorem getD_eq_get (l : List ShardGroup) (i : Nat) (h : i < l.length) :
    l.getD i dfltSG = l.get ⟨i, h⟩ := by
  simp [List.getD_eq_getElem?_getD, List.getElem?_eq_getElem h]

/-- In a sorted list the end times ascend, so the search predicate of
`ShardGroupAt` is monotone below the length. -/
theorem sorted_pred_mono (l : List ShardGroup) (hs : SortedSG l) (t : Int) :
    ∀ a b, a ≤ b → b < l.length →
      decide (t < (l.getD a dfltSG).endTime) = true →
      decide (t < (l.getD b dfltSG).endTime) = true := by
  intro a b hab hb hfa
  have ha : a < l.length := by omega
  rcases Nat.eq_or_lt_of_le hab with rfl | hlt
  · exact hfa
  · have hle := List.pairwise_iff_get.mp hs ⟨a, ha⟩ ⟨b, hb⟩ hlt
    rw [getD_eq_get l a ha] at hfa
    rw [getD_eq_get l b hb]
    simp only [decide_eq_true_eq] at hfa ⊢
    rcases hle with h | ⟨h1, _⟩
    · omega
    · omega

theorem sgLE_refl (g : ShardGroup) : sgLE g g := Or.inr ⟨rfl, le_rfl⟩

theorem shardGroupAt_eq (l : List ShardGroup) (t : Int) :
    shardGroupAt l t =
      if h : sortSearch l.length
          (fun i => decide (t < (l.getD i dfltSG).endTime)) < l.length then
        if t < (l.get ⟨sortSearch l.length
            (fun i => decide (t < (l.getD i dfltSG).endTime)), h⟩).startTime
        then none
        else some (l.get ⟨sortSearch l.length
            (fun i => decide (t < (l.getD i dfltSG).endTime)), h⟩)
      else none := rfl

/-- Propositional form of `sortSearch_spec` for the `ShardGroupAt` search. -/
theorem shardGroupAt_search (l : List ShardGroup) (t : Int) (hs : SortedSG l) :
    (∀ k, k < sortSearch l.length
        (fun i => decide (t < (l.getD i dfltSG).endTime)) →
      ¬t < (l.getD k dfltSG).endTime) ∧
    (∀ k, sortSearch l.length
        (fun i => decide (t < (l.getD i dfltSG).endTime)) ≤ k →
      k < l.length → t < (l.getD k dfltSG).endTime) := by
  have hspec := sortSearch_spec
    (fun i => decide (t < (l.getD i dfltSG).endTime))
    l.length (sorted_pred_mono l hs t)
  constructor
  · intro k hk
    have h := hspec.2.1 k hk
    simpa using h
  · intro k h1 h2
    have h := hspec.2.2 k h1 h2
    simpa using h

/-- Any group returned by `ShardGroupAt` on a sorted list is a member, it
contains `t`, and it is below (by `(endTime, startTime)`) every group whose
end time exceeds `t`. -/
theorem shardGroupAt_eq_some (l : List ShardGroup) (t : Int) (hs : SortedSG l)
    (g : ShardGroup) (h : shardGroupAt l t = some g) :
    g ∈ l ∧ g.startTime ≤ t ∧ t < g.endTime ∧
    ∀ gp ∈ l, t < gp.endTime → sgLE g gp := by
  obtain ⟨hA, hB⟩ := shardGroupAt_search l t hs
  rw [shardGroupAt_eq] at h
  set idx := sortSearch l.length
    (fun i => decide (t < (l.getD i dfltSG).endTime)) with hidx
  by_cases hlt : idx < l.length
  · rw [dif_pos hlt] at h
    by_cases hst : t < (l.get ⟨idx, hlt⟩).startTime
    · rw [if_pos hst] at h
      exact absurd h (by simp)
    · rw [if_neg hst] at h
      have hg : g = l.get ⟨idx, hlt⟩ := (Option.some.inj h).symm
      subst hg
      have hend : t < (l.get ⟨idx, hlt⟩).endTime := by
        have hf := hB idx le_rfl hlt
        rwa [getD_eq_get l idx hlt] at hf
      refine ⟨List.get_mem l idx hlt, le_of_not_lt hst, hend, ?_⟩
      intro gp hgp hgpend
      obtain ⟨⟨i, hi⟩, rfl⟩ := List.mem_iff_get.mp hgp
      have hfi : t < (l.getD i dfltSG).endTime := by
        rwa [getD_eq_get l i hi]
      have hile : idx ≤ i := by
        by_contra hc
        push_neg at hc
        exact hA i hc hfi
      rcases Nat.eq_or_lt_of_le hile with heq | hlt2
      · subst heq
        exact sgLE_refl _
      · exact List.pairwise_iff_get.mp hs ⟨idx, hlt⟩ ⟨i, hi⟩ hlt2
  · rw [dif_neg hlt] at h
    exact absurd h (by simp)

/-- `ShardGroupAt` on a sorted list returns nil exactly when the
`(endTime, startTime)`-least group among those with `endTime > t` — if any —
starts after `t`. -/
theorem shardGroupAt_eq_none_iff (l : List ShardGroup) (t : Int)
    (hs : SortedSG l) :
    shardGroupAt l t = none ↔
      ∀ g ∈ l, t < g.endTime →
        (∀ gp ∈ l, t < gp.endTime → sgLE g gp) → t < g.startTime := by
  obtain ⟨hA, hB⟩ := shardGroupAt_search l t hs
  constructor
  · intro h g hg hgend hgmin
    rw [shardGroupAt_eq] at h
    set idx := sortSearch l.length
      (fun i => decide (t < (l.getD i dfltSG).endTime)) with hidx
    obtain ⟨⟨i, hi⟩, rfl⟩ := List.mem_iff_get.mp hg
    have hfi : t < (l.getD i dfltSG).endTime := by
      rwa [getD_eq_get l i hi]
    have hile : idx ≤ i := by
      by_contra hc
      push_neg at hc
      exact hA i hc hfi
    have hlt : idx < l.length := by omega
    rw [dif_pos hlt] at h
    by_cases hst : t < (l.get ⟨idx, hlt⟩).startTime
    · have hidxend : t < (l.get ⟨idx, hlt⟩).endTime := by
        have hf := hB idx le_rfl hlt
        rwa [getD_eq_get l idx hlt] at hf
      have hmin := hgmin (l.get ⟨idx, hlt⟩) (List.get_mem l idx hlt) hidxend
      rcases Nat.eq_or_lt_of_le hile with heq | hlt2
      · subst heq
        exact hst
      · have hle2 := List.pairwise_iff_get.mp hs ⟨idx, hlt⟩ ⟨i, hi⟩ hlt2
        unfold sgLE at hmin hle2
        omega
    · rw [if_neg hst] at h
      exact absurd h (by simp)
  · intro hmin
    cases hsome : shardGroupAt l t with
    | none => rfl
    | some g =>
      obtain ⟨hmem, hst, hend, hming⟩ := shardGroupAt_eq_some l t hs g hsome
      have := hmin g hmem hend hming
      omega

/-- C3 (corrected): on a list sorted by `(end_time, start_time)`,
`ShardGroupAt(t)` examines only the least group (in that order) among those
with `end_time > t`: any returned group contains `t` and has the earliest end
time among groups with `end_time > t`, and nil is returned exactly when that
least candidate (if any) starts after `t` — even if another group with a
later end time contains `t`. -/
theorem shardGroupAt_spec (l : List ShardGroup) (t : Int) (hs : SortedSG l) :
    (∀ g, shardGroupAt l t = some g →
      g ∈ l ∧ g.startTime ≤ t ∧ t < g.endTime ∧
      ∀ gp ∈ l, t < gp.endTime → g.endTime ≤ gp.endTime) ∧
    (shardGroupAt l t = none ↔
      ∀ g ∈ l, t < g.endTime →
        (∀ gp ∈ l, t < gp.endTime → sgLE g gp) → t < g.startTime) := by
  constructor
  · intro g h
    obtain ⟨hmem, h1, h2, hmin⟩ := shardGroupAt_eq_some l t hs g h
    refine ⟨hmem, h1, h2, ?_⟩
    intro gp hgp hgpend
    have := hmin gp hgp hgpend
    unfold sgLE at this
    omega
  · exact shardGroupAt_eq_none_iff l t hs

/-- C3 counterexample: `cexList` is sorted by `(end_time, start_time)` and the
only group in it satisfying `end_time > 5 ∧ start_time ≤ 5` — hence the one
with the earliest such end time — is `⟨2, 0, 30⟩`, which contains 5; yet
`ShardGroupAt(5)` returns nil instead of that group. -/
theorem shardGroupAt_cex :
    SortedSG cexList ∧
    (⟨2, 0, 30, []⟩ : ShardGroup) ∈ cexList ∧
    (⟨2, 0, 30, []⟩ : ShardGroup).startTime ≤ 5 ∧
    (5 : Int) < (⟨2, 0, 30, []⟩ : ShardGroup).endTime ∧
    (∀ g ∈ cexList, g.startTime ≤ 5 → (5 : Int) < g.endTime →
      g = ⟨2, 0, 30, []⟩) ∧
    shardGroupAt cexList 5 = none := by
  decide

/-- C3 witness: a sorted singleton list containing time 5. -/
theorem shardGroupAt_spec_w :
    (⟨1, 0, 10, []⟩ : ShardGroup) ∈ [(⟨1, 0, 10, []⟩ : ShardGroup)] ∧
    (⟨1, 0, 10, []⟩ : ShardGroup).startTime ≤ 5 ∧
    (5 : Int) < (⟨1, 0, 10, []⟩ : ShardGroup).endTime ∧
    ∀ gp ∈ [(⟨1, 0, 10, []⟩ : ShardGroup)], (5 : Int) < gp.endTime →
      (⟨1, 0, 10, []⟩ : ShardGroup).endTime ≤ gp.endTime :=
  (shardGroupAt_spec [⟨1, 0, 10, []⟩] 5 (by decide)).1 ⟨1, 0, 10, []⟩ (by decide)

theorem covers_eq (l : List ShardGroup) (t : Int) :
    covers l t = (shardGroupAt l t).isSome := by
  unfold covers
  split
  · rename_i h
    rw [List.isEmpty_iff.mp h]
    rfl
  · rfl

/-- On a sorted list of well-formed, pairwise equal-or-disjoint groups,
`ShardGroupAt` finds a group exactly when some group contains `t`. -/
theorem shardGroupAt_isSome_iff (l : List ShardGroup) (t : Int)
    (hs : SortedSG l) (hwf : ∀ g ∈ l, g.startTime < g.endTime)
    (hd : l.Pairwise fun a b => a = b ∨ sgDisjoint a b) :
    (shardGroupAt l t).isSome = true ↔
      ∃ g ∈ l, g.startTime ≤ t ∧ t < g.endTime := by
  constructor
  · intro h
    obtain ⟨g, hg⟩ := Option.isSome_iff_exists.mp h
    obtain ⟨hmem, h1, h2, _⟩ := shardGroupAt_eq_some l t hs g hg
    exact ⟨g, hmem, h1, h2⟩
  · rintro ⟨g, hmem, hg1, hg2⟩
    obtain ⟨hA, hB⟩ := shardGroupAt_search l t hs
    rw [shardGroupAt_eq]
    set idx := sortSearch l.length
      (fun i => decide (t < (l.getD i dfltSG).endTime)) with hidx
    obtain ⟨⟨i, hi⟩, rfl⟩ := List.mem_iff_get.mp hmem
    have hfi : t < (l.getD i dfltSG).endTime := by
      rwa [getD_eq_get l i hi]
    have hile : idx ≤ i := by
      by_contra hc
      push_neg at hc
      exact hA i hc hfi
    have hlt : idx < l.length := by omega
    rw [dif_pos hlt]
    have hst : ¬t < (l.get ⟨idx, hlt⟩).startTime := by
      intro hst
      have hidxend : t < (l.get ⟨idx, hlt⟩).endTime := by
        have hf := hB idx le_rfl hlt
        rwa [getD_eq_get l idx hlt] at hf
      rcases Nat.eq_or_lt_of_le hile with heq | hlt2
      · subst heq
        omega
      · have hle2 := List.pairwise_iff_get.mp hs ⟨idx, hlt⟩ ⟨i, hi⟩ hlt2
        have hdisj := List.pairwise_iff_get.mp hd ⟨idx, hlt⟩ ⟨i, hi⟩ hlt2
        have hwfidx := hwf (l.get ⟨idx, hlt⟩) (List.get_mem l idx hlt)
        rcases hdisj with heq | hdisj
        · rw [heq] at hst
          omega
        · unfold sgLE at hle2
          unfold sgDisjoint at hdisj
          omega
    rw [if_neg hst]
    rfl

/-- C4 (corrected): on a list sorted by `(end_time, start_time)` whose groups
are well-formed (`start_time < end_time`) and pairwise non-overlapping,
`Covers(t)` is true iff some group contains `t`.  (With overlapping groups
`Covers` can return false although a group contains `t`; see the
counterexample.) -/
theorem covers_iff (l : List ShardGroup) (t : Int) (hs : SortedSG l)
    (hwf : ∀ g ∈ l, g.startTime < g.endTime)
    (hd : l.Pairwise fun a b => a = b ∨ sgDisjoint a b) :
    covers l t = true ↔ ∃ g ∈ l, g.startTime ≤ t ∧ t < g.endTime := by
  rw [covers_eq]
  exact shardGroupAt_isSome_iff l t hs hwf hd

/-- C4 counterexample: `cexList` is sorted by `(end_time, start_time)` and its
group `⟨2, 0, 30⟩` contains time 5 (the groups overlap), yet `Covers(5)` is
false. -/
theorem covers_cex :
    SortedSG cexList ∧
    (⟨2, 0, 30, []⟩ : ShardGroup) ∈ cexList ∧
    (⟨2, 0, 30, []⟩ : ShardGroup).startTime ≤ 5 ∧
    (5 : Int) < (⟨2, 0, 30, []⟩ : ShardGroup).endTime ∧
    covers cexList 5 = false := by
  decide

/-- C4 witness: two disjoint well-formed groups, time 5 covered. -/
theorem covers_iff_w :
    covers [(⟨1, 0, 10, []⟩ : ShardGroup), ⟨2, 10, 20, []⟩] 5 = true :=
  (covers_iff [⟨1, 0, 10, []⟩, ⟨2, 10, 20, []⟩] 5 (by decide) (by decide)
    (by decide)).mpr ⟨⟨1, 0, 10, []⟩, by decide, by decide, by decide⟩

theorem finishClass_ne_success (wrote : Nat) (werr : Option String) :
    finishClass wrote werr ≠ .success := by
  unfold finishClass
  split
  · simp
  · cases werr <;> simp

/-- The collection loop succeeds iff the successes in the consumed prefix
reach the required count. -/
theorem writeLoop_success_iff (required : Nat) :
    ∀ (n : Nat) (events : List WEvent) (wrote : Nat) (werr : Option String),
      n ≤ events.length → wrote < required →
      (writeLoop required n wrote werr events = .success ↔
        required ≤ wrote + okCount (takenResults n events)) := by
  intro n
  induction n with
  | zero =>
    intro events wrote werr _ hw
    simp only [writeLoop, takenResults, okCount, List.take_zero,
      List.takeWhile_nil, List.countP_nil]
    constructor
    · intro h
      exact absurd h (finishClass_ne_success wrote werr)
    · intro h
      omega
  | succ n ih =>
    intro events wrote werr hlen hw
    cases events with
    | nil => simp at hlen
    | cons e rest =>
      have hlen' : n ≤ rest.length := by
        simpa using hlen
      cases e with
      | closing =>
        simp only [writeLoop]
        constructor
        · intro h
          simp at h
        · intro h
          simp [takenResults, okCount, WEvent.isResult] at h
          omega
      | timeout =>
        simp only [writeLoop]
        constructor
        · intro h
          simp at h
        · intro h
          simp [takenResults, okCount, WEvent.isResult] at h
          omega
      | result r =>
        cases r with
        | some msg =>
          simp only [writeLoop]
          rw [ih rest wrote (if werr = none then some msg else werr) hlen' hw]
          simp [takenResults, okCount, WEvent.isResult]
        | none =>
          simp only [writeLoop]
          by_cases hreq : required ≤ wrote + 1
          · rw [if_pos hreq]
            simp [takenResults, okCount, WEvent.isResult]
            omega
          · rw [if_neg hreq]
            rw [ih rest (wrote + 1) werr hlen' (by omega)]
            simp [takenResults, okCount, WEvent.isResult]
            omega

/-- When every consumed event is a replica result and the successes fall
short of the required count, the loop drains all `n` results and applies the
final classification to the total success count and the first error seen. -/
theorem writeLoop_drain (required : Nat) :
    ∀ (n : Nat) (events : List WEvent) (wrote : Nat) (werr : Option String),
      n ≤ events.length →
      (∀ e ∈ events.take n, e.isResult = true) →
      wrote + okCount (events.take n) < required →
      writeLoop required n wrote werr events =
        finishClass (wrote + okCount (events.take n))
          (orFirst werr (firstErr (events.take n))) := by
  intro n
  induction n with
  | zero =>
    intro events wrote werr _ _ _
    simp only [writeLoop, List.take_zero, okCount, List.countP_nil,
      firstErr, List.filterMap_nil, List.head?_nil, Nat.add_zero]
    cases werr <;> rfl
  | succ n ih =>
    intro events wrote werr hlen hres hcnt
    cases events with
    | nil => simp at hlen
    | cons e rest =>
      have hlen' : n ≤ rest.length := by
        simpa using hlen
      have hehead : e.isResult = true := hres e (by simp)
      cases e with
      | closing => simp [WEvent.isResult] at hehead
      | timeout => simp [WEvent.isResult] at hehead
      | result r =>
        have hres' : ∀ e ∈ rest.take n, e.isResult = true := by
          intro x hx
          exact hres x (by simp [hx])
        cases r with
        | some msg =>
          have hcnt' : wrote + okCount (rest.take n) < required := by
            simp [okCount] at hcnt ⊢
            omega
          simp only [writeLoop]
          rw [ih rest wrote (if werr = none then some msg else werr) hlen'
            hres' hcnt']
          have hok : okCount ((WEvent.result (some msg) :: rest).take (n + 1)) =
              okCount (rest.take n) := by
            simp [okCount]
          have hfe : firstErr ((WEvent.result (some msg) :: rest).take (n + 1)) =
              some msg := by
            simp [firstErr]
          rw [hok, hfe]
          cases werr <;> simp [orFirst]
        | none =>
          have hok : okCount ((WEvent.result none :: rest).take (n + 1)) =
              okCount (rest.take n) + 1 := by
            simp [okCount]
          have hcnt' : wrote + 1 + okCount (rest.take n) < required := by
            rw [hok] at hcnt
            omega
          simp only [writeLoop]
          rw [if_neg (by omega)]
          rw [ih rest (wrote + 1) werr hlen' hres' hcnt']
          have hfe : firstErr ((WEvent.result none :: rest).take (n + 1)) =
              firstErr (rest.take n) := by
            simp [firstErr]
          rw [hok, hfe]
          have harith : wrote + 1 + okCount (rest.take n) =
              wrote + (okCount (rest.take n) + 1) := by omega
          rw [harith]

/-- C1: for a non-empty owners list (and a trace long enough to feed every
loop iteration, as the Go timeout guarantees), `writeToShard` returns nil iff
the number of owner results carrying a nil error received before any timeout
or shutdown event reaches `required(consistency, len(owners))`; and when all
`len(owners)` received events are results yet the successes fall short, it
returns `ErrPartialWrite` if at least one success was counted, the first
observed error wrapped as `"write failed: <err>"` if none succeeded but an
error was seen, and `ErrWriteFailed` otherwise. -/
theorem writeToShard_spec (consistency : ConsistencyLevel) (owners : List Nat)
    (events : List WEvent) (hne : owners ≠ [])
    (hlen : owners.length ≤ events.length) :
    (writeToShard consistency owners events = .success ↔
      requiredAcks consistency owners.length ≤
        okCount (takenResults owners.length events)) ∧
    ((∀ e ∈ events.take owners.length, e.isResult = true) →
      okCount (events.take owners.length) <
        requiredAcks consistency owners.length →
      writeToShard consistency owners events =
        if 0 < okCount (events.take owners.length) then .partialWrite
        else
          match firstErr (events.take owners.length) with
          | some e => .writeFailedWrapped ("write failed: " ++ e)
          | none => .writeFailed) := by
  have hpos : 0 < requiredAcks consistency owners.length := by
    have hlp : 0 < owners.length := List.length_pos.mpr hne
    cases consistency
    · simp [requiredAcks]
    · simp [requiredAcks]
    · simp [requiredAcks]
    · simpa [requiredAcks] using hlp
  constructor
  · have h := writeLoop_success_iff (requiredAcks consistency owners.length)
      owners.length events 0 none hlen hpos
    simpa [writeToShard] using h
  · intro hres hcnt
    have h := writeLoop_drain (requiredAcks consistency owners.length)
      owners.length events 0 none hlen hres (by omega)
    rw [writeToShard, h]
    simp only [Nat.zero_add, orFirst, finishClass]

/-- C1 witness: three owners at QUORUM with two successes and one failure in
the trace give success. -/
theorem writeToShard_spec_w :
    writeToShard .quorum [1, 2, 3]
      [.result none, .result (some "conn reset"), .result none] =
      .success := by
  have h := (writeToShard_spec .quorum [1, 2, 3]
    [.result none, .result (some "conn reset"), .result none]
    (by decide) (by decide)).1
  exact h.mpr (by decide)

/-- Invariants of the first `MapShards` loop when the meta client behaves as
a covering window function `w`: the loop succeeds, only grows the list, keeps
every member a window, keeps the list sorted, and covers every point of the
batch inside the retention window. -/
theorem buildSGList_spec (w : Int → ShardGroup)
    (hw : ∀ t, (w t).startTime ≤ t ∧ t < (w t).endTime)
    (hd : ∀ t u, w t = w u ∨ sgDisjoint (w t) (w u)) (minT : Int) :
    ∀ (ps : List Point) (l : List ShardGroup),
      (∀ g ∈ l, ∃ t, g = w t) → SortedSG l →
      ∃ L, buildSGList (fun t => some (w t)) minT ps l = .ok L ∧
        (∀ g ∈ l, g ∈ L) ∧ (∀ g ∈ L, ∃ t, g = w t) ∧ SortedSG L ∧
        ∀ p ∈ ps, minT ≤ p.time →
          ∃ g ∈ L, g.startTime ≤ p.time ∧ p.time < g.endTime := by
  intro ps
  induction ps with
  | nil =>
    intro l hprov hsort
    exact ⟨l, rfl, fun g hg => hg, hprov, hsort, by simp⟩
  | cons p ps ih =>
    intro l hprov hsort
    have hwf : ∀ g ∈ l, g.startTime < g.endTime := by
      intro g hg
      obtain ⟨t, rfl⟩ := hprov g hg
      have h := hw t
      omega
    have hdl : l.Pairwise fun a b => a = b ∨ sgDisjoint a b := by
      apply List.pairwise_of_forall_mem_list
      intro a ha b hb
      obtain ⟨t, rfl⟩ := hprov a ha
      obtain ⟨u, rfl⟩ := hprov b hb
      exact hd t u
    by_cases hc : p.time < minT ∨ covers l p.time = true
    · obtain ⟨L, hL, hsub, hprovL, hsortL, hcov⟩ := ih l hprov hsort
      refine ⟨L, ?_, hsub, hprovL, hsortL, ?_⟩
      · simp only [buildSGList]
        rw [if_pos hc]
        exact hL
      · intro q hq hqm
        rcases List.mem_cons.mp hq with rfl | hq'
        · rcases hc with h | h
          · omega
          · obtain ⟨g, hg, hg1, hg2⟩ :=
              (shardGroupAt_isSome_iff l q.time hsort hwf hdl).mp
                (by rwa [covers_eq] at h)
            exact ⟨g, hsub g hg, hg1, hg2⟩
        · exact hcov q hq' hqm
    · have hprov' : ∀ g ∈ sgAppend l (w p.time), ∃ t, g = w t := by
        intro g hg
        rcases (List.mem_orderedInsert sgLE).mp hg with rfl | hg'
        · exact ⟨p.time, rfl⟩
        · exact hprov g hg'
      have hsort' : SortedSG (sgAppend l (w p.time)) :=
        List.Sorted.orderedInsert (w p.time) l hsort
      obtain ⟨L, hL, hsub, hprovL, hsortL, hcov⟩ :=
        ih (sgAppend l (w p.time)) hprov' hsort'
      refine ⟨L, ?_, ?_, hprovL, hsortL, ?_⟩
      · simp only [buildSGList]
        rw [if_neg hc]
        exact hL
      · intro g hg
        exact hsub g ((List.mem_orderedInsert sgLE).mpr (Or.inr hg))
      · intro q hq hqm
        rcases List.mem_cons.mp hq with rfl | hq'
        · exact ⟨w q.time,
            hsub _ ((List.mem_orderedInsert sgLE).mpr (Or.inl rfl)),
            (hw q.time).1, (hw q.time).2⟩
        · exact hcov q hq' hqm

/-- The points stored across all buckets are exactly the points whose time
has a covering group, in batch order. -/
theorem mapShardsAssign_map_snd (shardFor : ShardGroup → Nat → Nat)
    (L : List ShardGroup) :
    ∀ ps : List Point,
      (mapShardsAssign shardFor L ps).map Prod.snd =
        ps.filter fun p => (shardGroupAt L p.time).isSome := by
  intro ps
  induction ps with
  | nil => rfl
  | cons p ps ih =>
    unfold mapShardsAssign at ih ⊢
    rw [List.filterMap_cons, List.filter_cons]
    cases h : shardGroupAt L p.time with
    | none => simpa [h] using ih
    | some sg => simp [h, ih]

/-- A point appears under a single shard key: the key is determined by the
point's time and hash. -/
theorem mapShardsAssign_key_unique (shardFor : ShardGroup → Nat → Nat)
    (L : List ShardGroup) (ps : List Point) (p : Point) (k₁ k₂ : Nat)
    (h₁ : (k₁, p) ∈ mapShardsAssign shardFor L ps)
    (h₂ : (k₂, p) ∈ mapShardsAssign shardFor L ps) : k₁ = k₂ := by
  obtain ⟨q₁, hq₁, hf₁⟩ := List.mem_filterMap.mp h₁
  obtain ⟨q₂, hq₂, hf₂⟩ := List.mem_filterMap.mp h₂
  obtain ⟨sg₁, hsg₁, hpair₁⟩ := Option.map_eq_some'.mp hf₁
  obtain ⟨sg₂, hsg₂, hpair₂⟩ := Option.map_eq_some'.mp hf₂
  obtain ⟨hk₁, hq₁'⟩ := Prod.mk.injEq .. |>.mp hpair₁
  obtain ⟨hk₂, hq₂'⟩ := Prod.mk.injEq .. |>.mp hpair₂
  subst hq₁' hq₂'
  rw [hsg₁] at hsg₂
  obtain rfl := Option.some.inj hsg₂
  rw [← hk₁, ← hk₂]

theorem count_filter_eq (q : Point → Bool) (p : Point) (hq : q p = true) :
    ∀ ps : List Point, (ps.filter q).count p = ps.count p := by
  intro ps
  induction ps with
  | nil => rfl
  | cons x xs ih =>
    rw [List.filter_cons]
    by_cases hx : x = p
    · subst hx
      rw [hq]
      simp [List.count_cons, ih]
    · cases hqx : q x
      · simp [List.count_cons, ih, hx]
      · simp [List.count_cons, ih, hx]

/-- C7 (corrected): with a meta client that returns, for each requested time,
a group covering that time, any two returned groups equal or disjoint,
`MapShards` succeeds and: every point is mapped iff the final group list
covers its time; every point with `time ≥ min_time` is covered, hence placed —
exactly once and under a single shard key — into a bucket; a point with
`time < min_time` is placed all the same whenever a group created for another
point of the batch covers its time (the claim's "silently drops every point
below min_time" fails; see the counterexample). -/
theorem mapShards_spec (w : Int → ShardGroup)
    (shardFor : ShardGroup → Nat → Nat) (now duration : Int)
    (points : List Point)
    (hw : ∀ t, (w t).startTime ≤ t ∧ t < (w t).endTime)
    (hd : ∀ t u, w t = w u ∨ sgDisjoint (w t) (w u)) :
    ∃ L, buildSGList (fun t => some (w t)) (minTime now duration) points [] =
        .ok L ∧
      MapShards (fun t => some (w t)) shardFor now duration points =
        .ok (mapShardsAssign shardFor L points) ∧
      ((mapShardsAssign shardFor L points).map Prod.snd =
        points.filter fun p => (shardGroupAt L p.time).isSome) ∧
      (∀ p ∈ points, minTime now duration ≤ p.time →
        (shardGroupAt L p.time).isSome = true) ∧
      (∀ (p : Point) (k₁ k₂ : Nat),
        (k₁, p) ∈ mapShardsAssign shardFor L points →
        (k₂, p) ∈ mapShardsAssign shardFor L points → k₁ = k₂) ∧
      (∀ p ∈ points, minTime now duration ≤ p.time →
        ((mapShardsAssign shardFor L points).map Prod.snd).count p =
          points.count p) := by
  obtain ⟨L, hL, _, hprovL, hsortL, hcov⟩ :=
    buildSGList_spec w hw hd (minTime now duration) points []
      (by intro g hg; simp at hg) List.sorted_nil
  have hwfL : ∀ g ∈ L, g.startTime < g.endTime := by
    intro g hg
    obtain ⟨t, rfl⟩ := hprovL g hg
    have h := hw t
    omega
  have hdL : L.Pairwise fun a b => a = b ∨ sgDisjoint a b := by
    apply List.pairwise_of_forall_mem_list
    intro a ha b hb
    obtain ⟨t, rfl⟩ := hprovL a ha
    obtain ⟨u, rfl⟩ := hprovL b hb
    exact hd t u
  have hcovered : ∀ p ∈ points, minTime now duration ≤ p.time →
      (shardGroupAt L p.time).isSome = true := by
    intro p hp hpm
    exact (shardGroupAt_isSome_iff L p.time hsortL hwfL hdL).mpr
      (hcov p hp hpm)
  refine ⟨L, hL, ?_, mapShardsAssign_map_snd shardFor L points, hcovered,
    fun p k₁ k₂ => mapShardsAssign_key_unique shardFor L points p k₁ k₂, ?_⟩
  · unfold MapShards
    rw [hL]
  · intro p hp hpm
    rw [mapShardsAssign_map_snd]
    exact count_filter_eq _ p (hcovered p hp hpm) points

/-- The 30-tick window function is a well-behaved meta client: each returned
group covers the requested time and any two are equal or disjoint. -/
theorem w30_props :
    (∀ t, (w30 t).startTime ≤ t ∧ t < (w30 t).endTime) ∧
    (∀ t u, w30 t = w30 u ∨ sgDisjoint (w30 t) (w30 u)) := by
  constructor
  · intro t
    unfold w30
    refine ⟨?_, ?_⟩
    · simp
      omega
    · simp
      omega
  · intro t u
    by_cases h : t / 30 = u / 30
    · left
      unfold w30
      rw [h]
    · right
      unfold w30 sgDisjoint
      simp
      omega

/-- C7 witness: the amended mapping invariants at a one-point batch under the
30-tick window client. -/
theorem mapShards_spec_w :
    ∃ L, buildSGList (fun t => some (w30 t)) (minTime 40 30) [⟨15, 0⟩] [] =
        .ok L ∧
      MapShards (fun t => some (w30 t)) cexShardFor 40 30 [⟨15, 0⟩] =
        .ok (mapShardsAssign cexShardFor L [⟨15, 0⟩]) ∧
      ((mapShardsAssign cexShardFor L [⟨15, 0⟩]).map Prod.snd =
        [⟨15, 0⟩].filter fun p => (shardGroupAt L p.time).isSome) ∧
      (∀ p ∈ [(⟨15, 0⟩ : Point)], minTime 40 30 ≤ p.time →
        (shardGroupAt L p.time).isSome = true) ∧
      (∀ (p : Point) (k₁ k₂ : Nat),
        (k₁, p) ∈ mapShardsAssign cexShardFor L [⟨15, 0⟩] →
        (k₂, p) ∈ mapShardsAssign cexShardFor L [⟨15, 0⟩] → k₁ = k₂) ∧
      (∀ p ∈ [(⟨15, 0⟩ : Point)], minTime 40 30 ≤ p.time →
        ((mapShardsAssign cexShardFor L [⟨15, 0⟩]).map Prod.snd).count p =
          [⟨15, 0⟩].count p) :=
  mapShards_spec w30 cexShardFor 40 30 [⟨15, 0⟩] w30_props.1 w30_props.2

/-- C7 counterexample: with `min_time = 10`, the batch `[⟨15⟩, ⟨9⟩]` creates
the window `[0, 30)` for the first point; the second point's time
`9 = min_time − 1` is below `min_time`, yet the point is mapped into the
shard bucket because the created group covers it — it is not dropped. -/
theorem mapShards_cex :
    (⟨9, 0⟩ : Point).time < minTime 40 30 ∧
    (⟨9, 0⟩ : Point).time = minTime 40 30 - 1 ∧
    MapShards cexCreate cexShardFor 40 30 [⟨15, 0⟩, ⟨9, 0⟩] =
      .ok [(7, ⟨15, 0⟩), (7, ⟨9, 0⟩)] := by
  refine ⟨by decide, by decide, rfl⟩
